import Mathlib

set_option linter.unusedVariables false

/-!
Verification of the deduplication + personalized-ranking pipeline of
`daily_report.py` (Campus_News_Watcher).

The embedding follows the source:
* an `Item` is one row of the news DataFrame (fields used by the core:
  `link`, `title`, `summary`, `feed_name`, and the two timestamp columns,
  already parsed by `pd.to_datetime(..., errors="coerce")`, so a value is
  `none` exactly when the column is missing or unparseable, i.e. NaT);
* a `Frame` is a DataFrame: its row list plus whether the `link` column
  exists (`"link" in df.columns`);
* the persisted seen set (a Python `set` of strings) is a `List String`
  used up to membership;
* the external DeepSeek call is an oracle: its raw text response, or
  `none` when the call raises.
-/

structure Item where
  link : String
  title : String
  summary : String
  feedName : String
  published : Option Int
  fetchedAt : Option Int
  deriving DecidableEq, Inhabited

structure Frame where
  hasLinkCol : Bool
  rows : List Item
  deriving DecidableEq, Inhabited

/-- The `personalization` section of `config/settings.yaml`, after the
`int(...)` conversions done in `personalized_recommendations`.
`maxWorkers` only bounds thread-pool parallelism and does not influence
any value computed by the pipeline. -/
structure Settings where
  enable : Bool
  userProfile : String
  maxCandidates : Nat
  topN : Nat
  maxWorkers : Nat
  deriving DecidableEq, Inhabited

/-- Python `str.strip()` on a character list: drop whitespace from both
ends. -/
def stripChars (cs : List Char) : List Char :=
  ((cs.dropWhile Char.isWhitespace).reverse.dropWhile Char.isWhitespace).reverse

/-- The first maximal run of decimal digits in the text, i.e. the first
match of `re.findall(r"\d+", content)`; `none` when there is no digit.
`score_item_with_deepseek` only uses the first element of `findall` and
whether the list is empty, which this function captures exactly. -/
def firstDigitRun : List Char → Option (List Char)
  | [] => none
  | c :: rest =>
    if c.isDigit then some (c :: rest.takeWhile Char.isDigit)
    else firstDigitRun rest

/-- Numeric value of a run of decimal digits (the value `float(digits[0])`
takes on an integral digit token). -/
def digitsToNat (cs : List Char) : Nat :=
  cs.foldl (fun n c => 10 * n + (c.toNat - 48)) 0

/-- `score_item_with_deepseek` (daily_report.py lines 180-232), with the
external call abstracted as its outcome: `rawResponse = none` models the
`except` branch (the call raised), `some content` models a returned
message body.  The code strips the body, extracts the digit tokens, and
returns `0.0` if there is none, else the first token clamped by
`max(0.0, min(100.0, score))`.  All scores the code can produce are
integral, so the result is a `Nat`. -/
def scoreItemWithDeepseek (userProfile : String) (item : Item)
    (rawResponse : Option String) : Nat :=
  match rawResponse with
  | none => 0
  | some content =>
    match firstDigitRun (stripChars content.data) with
    | none => 0
    | some run => max 0 (min 100 (digitsToNat run))

/-- `filter_unseen_items` (daily_report.py lines 137-156): if the frame
has no `link` column, return it unchanged; if the seen set is empty,
return it unchanged; else keep the rows whose link is not in the seen
set (`~links_today.isin(seen_links)`). -/
def filterUnseenItems (f : Frame) (seenLinks : List String) : Frame :=
  if f.hasLinkCol = false then f
  else if seenLinks = [] then f
  else { f with rows := f.rows.filter (fun it => !(seenLinks.contains it.link)) }

/-- Claim C2: for every profile, item, and raw outcome of the external
call (including an exception, modelled by `none`), the score returned by
`score_item_with_deepseek` lies in the closed interval `[0, 100]`. -/
theorem score_bound (userProfile : String) (item : Item)
    (rawResponse : Option String) :
    0 ≤ scoreItemWithDeepseek userProfile item rawResponse ∧
      scoreItemWithDeepseek userProfile item rawResponse ≤ 100 := by
  refine ⟨Nat.zero_le _, ?_⟩
  unfold scoreItemWithDeepseek
  split
  · exact Nat.zero_le _
  · split
    · exact Nat.zero_le _
    · omega

/-!
Sorting.  `candidates.sort_values(col, ascending=False)` reaches pandas'
`nargsort` (pandas/core/sorting.py), which with `ascending=False` and
`na_position="last"` computes: reverse the non-NaN values and their
indices, take an ascending `argsort` of the reversed values, map the
positions through the reversed index array, reverse the result, and
append the NaN indices in original order.  The underlying `argsort` uses
numpy's default `kind='quicksort'`; its order on equal keys is not
specified by the library.  The executable model below resolves ties
stably (equal keys keep their index order, which is what numpy's
introsort produces on small inputs); the conformance predicate
`IsAscArgsortOf` describes every outcome the library permits.
-/

/-- Stable insertion of `x` into `l`: `x` is placed before the first
element not below it. -/
def insertSorted (le : β → β → Bool) (x : β) : List β → List β
  | [] => [x]
  | y :: ys => if le x y then x :: y :: ys else y :: insertSorted le x ys

/-- Stable insertion sort by the comparator `le`. -/
def insertionSort (le : β → β → Bool) : List β → List β
  | [] => []
  | x :: xs => insertSorted le x (insertionSort le xs)

/-- Comparator of an ascending argsort over `keys`: position `i` comes
before position `j` when its key is smaller, with ties resolved by index
order (the stable resolution). -/
def idxLe [LinearOrder α] (keys : List α) (d : α) (i j : Nat) : Bool :=
  decide (keys.getD i d < keys.getD j d ∨ (keys.getD i d = keys.getD j d ∧ i ≤ j))

/-- Ascending argsort of `keys` (`non_nans.argsort(kind=kind)` in
`nargsort`), with ties resolved stably. -/
def argsortAsc [LinearOrder α] (keys : List α) (d : α) : List Nat :=
  insertionSort (idxLe keys d) (List.range keys.length)

/-- Any ascending argsort the library's `kind='quicksort'` may return: a
permutation of the positions of `keys` along which the keys are
non-decreasing.  Equal-key order is not constrained. -/
def IsAscArgsortOf (keys : List Nat) (p : List Nat) : Prop :=
  p.Perm (List.range keys.length) ∧
    p.Pairwise (fun i j => keys.getD i 0 ≤ keys.getD j 0)

/-- The descending indexer `nargsort` builds from an ascending argsort
`p` of the reversed (NaN-free) column of length `n`:
`non_nan_idx = idx[::-1]`, `indexer = non_nan_idx[p]`, then
`indexer[::-1]`. -/
def pandasDescFromAsc (p : List Nat) (n : Nat) : List Nat :=
  (p.map (fun k => n - 1 - k)).reverse

/-- Indices of the rows whose key is non-NaN (`np.nonzero(~mask)[0]`). -/
def nonNanIdx (keys : List (Option α)) : List Nat :=
  (List.range keys.length).filter (fun i => (keys.getD i none).isSome)

/-- Indices of the rows whose key is NaN (`np.nonzero(mask)[0]`). -/
def nanIdx (keys : List (Option α)) : List Nat :=
  (List.range keys.length).filter (fun i => !(keys.getD i none).isSome)

/-- `non_nan_idx[::-1]`, the reversal `nargsort` applies for a
descending sort. -/
def nnRev (keys : List (Option α)) : List Nat := (nonNanIdx keys).reverse

/-- The reversed non-NaN key values (`non_nans[::-1]`), aligned with
`nnRev`. -/
def nnVals [Inhabited α] (keys : List (Option α)) (d : α) : List α :=
  (nnRev keys).map (fun i => (keys.getD i none).getD d)

/-- Full model of `nargsort(column, kind='quicksort', ascending=False,
na_position='last')`: the descending indexer over the non-NaN rows,
followed by the NaN rows in original order. -/
def nargsortDesc [LinearOrder α] [Inhabited α] (keys : List (Option α)) (d : α) : List Nat :=
  ((argsortAsc (nnVals keys d) d).map (fun k => (nnRev keys).getD k 0)).reverse
    ++ nanIdx keys

/-- The score column holds a float in `[0, 100]` for every row, so its
NaN mask is all-false; sorting it is `nargsortDesc` on `some`-wrapped
keys. -/
def nargsortDescScores (scores : List Nat) : List Nat :=
  nargsortDesc (scores.map (fun s => some s)) 0

/-- `candidates.sort_values("_personal_score", ascending=False).head(top_n)`
(daily_report.py line 289): reorder the rows by the descending indexer of
the score column and truncate to `top_n`. -/
def rankAggregator [Inhabited β] (rows : List β) (scores : List Nat) (topN : Nat) : List β :=
  ((nargsortDescScores scores).map (fun i => rows.getD i default)).take topN

/-- Reordering rows along an arbitrary descending indexer, then
truncating; `rankAggregator rows scores topN` is this applied to the
indexer built from the stable argsort. -/
def rankWithDescIdx [Inhabited β] (rows : List β) (descIdx : List Nat) (topN : Nat) : List β :=
  (descIdx.map (fun i => rows.getD i default)).take topN

/-- The effective timestamp of a row:
`ts = tmp["published"].fillna(tmp["fetched_at"])` (daily_report.py
line 269); `none` is NaT. -/
def effTs (it : Item) : Option Int :=
  match it.published with
  | some t => some t
  | none => it.fetchedAt

/-- Lines 264-273 of daily_report.py: sort the batch by effective
timestamp descending (NaT rows last) and keep the first
`max_candidates` rows. -/
def selectCandidates (rows : List Item) (maxCandidates : Nat) : List Item :=
  ((nargsortDesc (rows.map effTs) 0).map (fun i => rows.getD i default)).take maxCandidates

/-- `get_recent_data` (daily_report.py lines 60-72): keep the rows whose
effective timestamp is at least the cutoff `now - days_window`; a NaT
timestamp compares false and the row is dropped. -/
def getRecentData (f : Frame) (cutoff : Int) : Frame :=
  { f with
    rows := f.rows.filter (fun it =>
      match effTs it with
      | some t => decide (cutoff ≤ t)
      | none => false) }

/-- `personalized_recommendations` (daily_report.py lines 235-291).  The
external state feeding it is explicit: `apiKey` is
`os.environ.get("DEEPSEEK_API_KEY")` (so `get_deepseek_client()` returns
`None` iff `apiKey = none`), and `scoreFn` is the per-item outcome of the
scoring calls (`score_item_with_deepseek` applied to the response of this
item's request).  Returns the ranked report as (row, score) pairs, the
model of the returned DataFrame with its `_personal_score` column, or
`none` when the step is skipped. -/
def personalizedRecommendations (recentRows : List Item) (settings : Settings)
    (apiKey : Option String) (scoreFn : Item → Nat) : Option (List (Item × Nat)) :=
  if !settings.enable then none
  else if stripChars settings.userProfile.data = [] then none
  else
    match apiKey with
    | none => none
    | some _ =>
      if recentRows = [] then none
      else
        some (rankAggregator
          ((selectCandidates recentRows settings.maxCandidates).zip
            ((selectCandidates recentRows settings.maxCandidates).map scoreFn))
          ((selectCandidates recentRows settings.maxCandidates).map scoreFn)
          settings.topN)

/-!
The concurrent engine.  `scores = list(executor.map(_score, items))`
(daily_report.py lines 285-286) runs one scoring call per item on a pool
of at most `max_workers` threads; `Executor.map` yields the results in
the order of its input iterable, each result landing in the slot of the
item that produced it.  The model makes the completion order explicit:
`order` lists the item indices in the order their calls complete (any
pool size yields some such order, a permutation of the indices), and
each completion writes its item's score into that item's slot.
-/

/-- Slot array after all calls completed in the order `order`. -/
def runSchedule (f : Item → Nat) (items : List Item) (order : List Nat) :
    List (Option Nat) :=
  order.foldl (fun slots i => slots.set i (some (f (items.getD i default))))
    (List.replicate items.length none)

/-- The scores list the engine hands to the ranking step. -/
def scoreAll (f : Item → Nat) (items : List Item) (order : List Nat) : List Nat :=
  (runSchedule f items order).map (fun s => s.getD 0)

/-- The links folded into the seen set at the end of a run
(daily_report.py lines 343-371): the link of every report row, skipping
empty ones (`if link:`). -/
def reportLinks (report : List (Item × Nat)) : List String :=
  (report.map (fun r => r.1.link)).filter (fun l => l ≠ "")

/-- Lines 374-377 of daily_report.py: `seen_links.update(recommended_links)`
followed by `save_seen_links`, executed only when `recommended_links` is
non-empty.  The Python set is modelled by a list up to membership. -/
def updatedSeen (seen : List String) (report : List (Item × Nat)) : List String :=
  if reportLinks report = [] then seen else seen ++ reportLinks report

/-- One run of `main()` (daily_report.py lines 298-388), restricted to
the core state: takes the incoming batch and the loaded seen set,
returns the report it surfaced (`none` for the nothing-to-report exits)
and the seen set as persisted for the next run. -/
def runPipeline (batch : Frame) (seen : List String) (settings : Settings)
    (apiKey : Option String) (scoreFn : Item → Nat) (cutoff : Int) :
    Option (List (Item × Nat)) × List String :=
  if (filterUnseenItems batch seen).rows = [] then (none, seen)
  else
    match personalizedRecommendations
        (getRecentData (filterUnseenItems batch seen) cutoff).rows
        settings apiKey scoreFn with
    | none => (none, seen)
    | some report =>
      if report = [] then (none, seen)
      else (some report, updatedSeen seen report)

/-!
General lemmas: the slot array of the concurrent engine, the insertion
sort, and the argsort/nargsort constructions.
-/

theorem foldl_set_length (f : Item → Nat) (items : List Item) :
    ∀ (order : List Nat) (slots : List (Option Nat)),
      (order.foldl (fun s j => s.set j (some (f (items.getD j default)))) slots).length
        = slots.length := by
  intro order
  induction order with
  | nil => intro slots; rfl
  | cons j rest ih => intro slots; rw [List.foldl_cons, ih, List.length_set]

theorem foldl_set_getD (f : Item → Nat) (items : List Item) :
    ∀ (order : List Nat) (slots : List (Option Nat)) (i : Nat), i < slots.length →
      (order.foldl (fun s j => s.set j (some (f (items.getD j default)))) slots).getD i none
        = if i ∈ order then some (f (items.getD i default)) else slots.getD i none := by
  intro order
  induction order with
  | nil => intro slots i hi; simp
  | cons j rest ih =>
    intro slots i hi
    rw [List.foldl_cons, ih _ i (by simpa using hi)]
    by_cases hmem : i ∈ rest
    · simp [hmem]
    · by_cases hij : i = j
      · subst hij
        rw [if_neg hmem, if_pos (List.mem_cons_self i rest),
          List.getD_eq_getElem _ _ (by simpa using hi), List.getElem_set_self]
      · rw [if_neg hmem, if_neg (by simp [hij, hmem]),
          List.getD_eq_getElem _ _ (by simpa using hi), List.getD_eq_getElem _ _ hi,
          List.getElem_set_ne (by omega)]

theorem runSchedule_length (f : Item → Nat) (items : List Item) (order : List Nat) :
    (runSchedule f items order).length = items.length := by
  rw [runSchedule, foldl_set_length, List.length_replicate]

theorem runSchedule_getD (f : Item → Nat) (items : List Item) (order : List Nat)
    (i : Nat) (hi : i < items.length) (hmem : i ∈ order) :
    (runSchedule f items order).getD i none = some (f (items.getD i default)) := by
  rw [runSchedule, foldl_set_getD f items order _ i (by simpa using hi), if_pos hmem]

theorem scoreAll_eq_map (f : Item → Nat) (items : List Item) (order : List Nat)
    (hperm : order.Perm (List.range items.length)) :
    scoreAll f items order = items.map f := by
  apply List.ext_getElem
  · simp [scoreAll, runSchedule_length]
  · intro i h1 h2
    have hi : i < items.length := by simpa using h2
    have hlen : i < (runSchedule f items order).length := by
      rw [runSchedule_length]; exact hi
    have hmem : i ∈ order := hperm.mem_iff.2 (List.mem_range.2 hi)
    have hx : (runSchedule f items order)[i] = some (f (items.getD i default)) := by
      rw [← List.getD_eq_getElem _ none hlen]
      exact runSchedule_getD f items order i hi hmem
    unfold scoreAll at h1 ⊢
    rw [List.getElem_map, List.getElem_map, hx]
    show f (items.getD i default) = f items[i]
    rw [List.getD_eq_getElem _ _ hi]

theorem insertSorted_perm (le : β → β → Bool) (x : β) :
    ∀ l : List β, (insertSorted le x l).Perm (x :: l) := by
  intro l
  induction l with
  | nil => exact List.Perm.refl _
  | cons y ys ih =>
    simp only [insertSorted]
    split
    · exact List.Perm.refl _
    · exact (ih.cons y).trans (List.Perm.swap x y ys)

theorem insertionSort_perm (le : β → β → Bool) :
    ∀ l : List β, (insertionSort le l).Perm l := by
  intro l
  induction l with
  | nil => exact List.Perm.refl _
  | cons x xs ih => exact (insertSorted_perm le x _).trans (ih.cons x)

theorem mem_insertSorted (le : β → β → Bool) (x a : β) (l : List β) :
    a ∈ insertSorted le x l ↔ a = x ∨ a ∈ l := by
  have h := (insertSorted_perm le x l).mem_iff (a := a)
  simpa using h

theorem insertSorted_pairwise {le : β → β → Bool}
    (htot : ∀ a b, le a b = true ∨ le b a = true)
    (htrans : ∀ a b c, le a b = true → le b c = true → le a c = true)
    (x : β) : ∀ {l : List β}, l.Pairwise (fun a b => le a b = true) →
      (insertSorted le x l).Pairwise (fun a b => le a b = true) := by
  intro l
  induction l with
  | nil => intro _; simp [insertSorted]
  | cons y ys ih =>
    intro hp
    rw [List.pairwise_cons] at hp
    obtain ⟨hy, hys⟩ := hp
    simp only [insertSorted]
    split
    · rename_i hxy
      refine List.Pairwise.cons ?_ (List.Pairwise.cons hy hys)
      intro z hz
      rcases List.mem_cons.1 hz with rfl | hz'
      · exact hxy
      · exact htrans x y z hxy (hy z hz')
    · rename_i hxy
      have hyx : le y x = true := by
        rcases htot x y with h | h
        · exact absurd h hxy
        · exact h
      refine List.Pairwise.cons ?_ (ih hys)
      intro z hz
      rcases (mem_insertSorted le x z ys).1 hz with rfl | hz'
      · exact hyx
      · exact hy z hz'

theorem insertionSort_pairwise {le : β → β → Bool}
    (htot : ∀ a b, le a b = true ∨ le b a = true)
    (htrans : ∀ a b c, le a b = true → le b c = true → le a c = true) :
    ∀ l : List β, (insertionSort le l).Pairwise (fun a b => le a b = true) := by
  intro l
  induction l with
  | nil => exact List.Pairwise.nil
  | cons x xs ih => exact insertSorted_pairwise htot htrans x ih

theorem pairwise_of_mem_right {S : β → β → Prop} {l : List β}
    (h : ∀ b ∈ l, ∀ a, S a b) : l.Pairwise S := by
  induction l with
  | nil => exact List.Pairwise.nil
  | cons x xs ih =>
    refine List.Pairwise.cons (fun z hz => h z (List.mem_cons_of_mem _ hz) x) (ih ?_)
    intro b hb a
    exact h b (List.mem_cons_of_mem _ hb) a

theorem map_getD_range (d : β) (l : List β) :
    (List.range l.length).map (fun i => l.getD i d) = l := by
  apply List.ext_getElem
  · simp
  · intro i h1 h2
    rw [List.getElem_map, List.getElem_range, List.getD_eq_getElem _ _ (by simpa using h2)]

theorem idxLe_total [LinearOrder α] (keys : List α) (d : α) :
    ∀ i j : Nat, idxLe keys d i j = true ∨ idxLe keys d j i = true := by
  intro i j
  simp only [idxLe, decide_eq_true_eq]
  rcases lt_trichotomy (keys.getD i d) (keys.getD j d) with h | h | h
  · exact Or.inl (Or.inl h)
  · rcases Nat.le_total i j with hij | hij
    · exact Or.inl (Or.inr ⟨h, hij⟩)
    · exact Or.inr (Or.inr ⟨h.symm, hij⟩)
  · exact Or.inr (Or.inl h)

theorem idxLe_trans [LinearOrder α] (keys : List α) (d : α) :
    ∀ i j k : Nat, idxLe keys d i j = true → idxLe keys d j k = true →
      idxLe keys d i k = true := by
  intro i j k
  simp only [idxLe, decide_eq_true_eq]
  rintro (h1 | ⟨h1, h1'⟩) (h2 | ⟨h2, h2'⟩)
  · exact Or.inl (h1.trans h2)
  · exact Or.inl (lt_of_lt_of_le h1 (le_of_eq h2))
  · exact Or.inl (lt_of_le_of_lt (le_of_eq h1) h2)
  · exact Or.inr ⟨h1.trans h2, h1'.trans h2'⟩

theorem argsortAsc_perm [LinearOrder α] (keys : List α) (d : α) :
    (argsortAsc keys d).Perm (List.range keys.length) :=
  insertionSort_perm _ _

theorem argsortAsc_pairwise [LinearOrder α] (keys : List α) (d : α) :
    (argsortAsc keys d).Pairwise (fun i j => idxLe keys d i j = true) :=
  insertionSort_pairwise (idxLe_total keys d) (idxLe_trans keys d) _

/-- Descending key order with NaN (`none`) at the bottom: `optGe a b`
says a row with key `a` may validly precede a row with key `b` in the
output of a descending, NaN-last sort. -/
def optGe [LE α] (a b : Option α) : Prop :=
  match b with
  | none => True
  | some y =>
    match a with
    | none => False
    | some x => y ≤ x

instance optGe.instDecidable [LinearOrder α] (a b : Option α) : Decidable (optGe a b) :=
  match b with
  | none => isTrue trivial
  | some y =>
    match a with
    | none => isFalse (fun h => h)
    | some x => inferInstanceAs (Decidable (y ≤ x))

/-- Strictly newer-than, with `none` (NaT) strictly older than every
parseable timestamp. -/
def optLt [LT α] (a b : Option α) : Prop :=
  match b with
  | none => False
  | some y =>
    match a with
    | none => True
    | some x => x < y

instance optLt.instDecidable [LinearOrder α] (a b : Option α) : Decidable (optLt a b) :=
  match b with
  | none => isFalse (fun h => h)
  | some y =>
    match a with
    | none => isTrue trivial
    | some x => inferInstanceAs (Decidable (x < y))

theorem optLt_not_optGe [LinearOrder α] {a b : Option α} (h : optLt a b) : ¬ optGe a b := by
  match b with
  | none => exact absurd h (fun hf => hf)
  | some y =>
    match a with
    | none => exact fun hg => hg
    | some x => exact fun hg => absurd (lt_of_lt_of_le h hg) (lt_irrefl x)

theorem mem_nnRev_isSome (keys : List (Option α)) {i : Nat} (h : i ∈ nnRev keys) :
    (keys.getD i none).isSome = true := by
  unfold nnRev at h
  rw [List.mem_reverse] at h
  unfold nonNanIdx at h
  exact (List.mem_filter.1 h).2

theorem nanIdx_key_none (keys : List (Option α)) {i : Nat} (h : i ∈ nanIdx keys) :
    keys.getD i none = none := by
  unfold nanIdx at h
  have h2 := (List.mem_filter.1 h).2
  cases h3 : keys.getD i none with
  | none => rfl
  | some x => rw [h3] at h2; simp at h2

theorem nargsortDesc_perm [LinearOrder α] [Inhabited α] (keys : List (Option α)) (d : α) :
    (nargsortDesc keys d).Perm (List.range keys.length) := by
  have hlen : (nnVals keys d).length = (nnRev keys).length := List.length_map _ _
  have h1 : (argsortAsc (nnVals keys d) d).Perm (List.range (nnRev keys).length) := by
    have h := argsortAsc_perm (nnVals keys d) d
    rwa [hlen] at h
  have h2 : ((argsortAsc (nnVals keys d) d).map (fun k => (nnRev keys).getD k 0)).Perm
      (nnRev keys) := by
    have h := h1.map (fun k => (nnRev keys).getD k 0)
    rwa [map_getD_range 0 (nnRev keys)] at h
  have h3 : (nargsortDesc keys d).Perm (nonNanIdx keys ++ nanIdx keys) := by
    unfold nargsortDesc
    refine List.Perm.append ?_ (List.Perm.refl _)
    exact (List.reverse_perm _).trans (h2.trans (List.reverse_perm _))
  exact h3.trans (List.filter_append_perm _ _)

theorem nargsortDesc_pairwise [LinearOrder α] [Inhabited α] (keys : List (Option α)) (d : α) :
    (nargsortDesc keys d).Pairwise
      (fun i j => optGe (keys.getD i none) (keys.getD j none)) := by
  unfold nargsortDesc
  rw [List.pairwise_append]
  refine ⟨?_, ?_, ?_⟩
  · rw [List.pairwise_reverse, List.pairwise_map]
    refine (argsortAsc_pairwise (nnVals keys d) d).imp_of_mem ?_
    intro k₁ k₂ hk₁ hk₂ hle
    have hlen : (nnVals keys d).length = (nnRev keys).length := List.length_map _ _
    have hb₁ : k₁ < (nnRev keys).length := by
      have h := (argsortAsc_perm (nnVals keys d) d).mem_iff.1 hk₁
      rw [List.mem_range, hlen] at h
      exact h
    have hb₂ : k₂ < (nnRev keys).length := by
      have h := (argsortAsc_perm (nnVals keys d) d).mem_iff.1 hk₂
      rw [List.mem_range, hlen] at h
      exact h
    have hf₁ : (nnRev keys).getD k₁ 0 ∈ nnRev keys := by
      rw [List.getD_eq_getElem _ _ hb₁]
      exact List.getElem_mem _
    have hf₂ : (nnRev keys).getD k₂ 0 ∈ nnRev keys := by
      rw [List.getD_eq_getElem _ _ hb₂]
      exact List.getElem_mem _
    obtain ⟨x₁, hx₁⟩ := Option.isSome_iff_exists.1 (mem_nnRev_isSome keys hf₁)
    obtain ⟨x₂, hx₂⟩ := Option.isSome_iff_exists.1 (mem_nnRev_isSome keys hf₂)
    have hv₁ : (nnVals keys d).getD k₁ d = x₁ := by
      rw [List.getD_eq_getElem _ _ (hlen ▸ hb₁)]
      unfold nnVals
      rw [List.getElem_map, ← List.getD_eq_getElem (nnRev keys) 0 hb₁, hx₁]
      rfl
    have hv₂ : (nnVals keys d).getD k₂ d = x₂ := by
      rw [List.getD_eq_getElem _ _ (hlen ▸ hb₂)]
      unfold nnVals
      rw [List.getElem_map, ← List.getD_eq_getElem (nnRev keys) 0 hb₂, hx₂]
      rfl
    have hlev : (nnVals keys d).getD k₁ d ≤ (nnVals keys d).getD k₂ d := by
      have h := of_decide_eq_true hle
      rcases h with h | ⟨h, _⟩
      · exact le_of_lt h
      · exact le_of_eq h
    rw [hx₁, hx₂]
    show x₁ ≤ x₂
    rw [hv₁, hv₂] at hlev
    exact hlev
  · apply pairwise_of_mem_right
    intro b hb a
    have h := nanIdx_key_none keys hb
    rw [h]
    exact trivial
  · intro i hi j hj
    have h := nanIdx_key_none keys hj
    rw [h]
    exact trivial

/-!
Claim theorems.  Concrete rows used by witnesses and the counterexample:
-/

def itemA : Item := ⟨"https://u.example/a", "A", "", "U", none, some 2⟩

def itemB : Item := ⟨"https://u.example/b", "B", "", "U", some 5, none⟩

def itemC : Item := ⟨"https://u.example/c", "C", "", "U", some 9, some 1⟩

/-- Claim C10: when the input frame has no `link` column at all,
`filter_unseen_items` performs no deduplication and returns the input
unchanged, for every seen set. -/
theorem no_link_column_keeps_all (f : Frame) (seenLinks : List String)
    (h : f.hasLinkCol = false) : filterUnseenItems f seenLinks = f := by
  unfold filterUnseenItems
  rw [if_pos h]

theorem no_link_column_keeps_all_witness :
    filterUnseenItems ⟨false, [itemA, itemB]⟩ ["https://u.example/a"]
      = ⟨false, [itemA, itemB]⟩ :=
  no_link_column_keeps_all ⟨false, [itemA, itemB]⟩ ["https://u.example/a"] rfl

/-- Claim C8: when the API key is absent, or personalization is
disabled, or the user profile is empty after stripping,
`personalized_recommendations` returns no report (`None`) instead of
raising, for every input batch. -/
theorem missing_config_no_report (recentRows : List Item) (settings : Settings)
    (apiKey : Option String) (scoreFn : Item → Nat)
    (h : apiKey = none ∨ settings.enable = false ∨
      stripChars settings.userProfile.data = []) :
    personalizedRecommendations recentRows settings apiKey scoreFn = none := by
  unfold personalizedRecommendations
  rcases h with h | h | h
  · subst h
    by_cases he : (!settings.enable) = true
    · rw [if_pos he]
    · rw [if_neg he]
      by_cases hp : stripChars settings.userProfile.data = []
      · rw [if_pos hp]
      · rw [if_neg hp]
  · rw [h]
    rfl
  · by_cases he : (!settings.enable) = true
    · rw [if_pos he]
    · rw [if_neg he, if_pos h]

theorem missing_config_no_report_witness :
    personalizedRecommendations [itemA] ⟨true, "likes ML", 80, 10, 30⟩ none
      (fun _ => 0) = none :=
  missing_config_no_report [itemA] ⟨true, "likes ML", 80, 10, 30⟩ none
    (fun _ => 0) (Or.inl rfl)

/-- Claim C7: `score_item_with_deepseek` never propagates an exception
(it is a total function of the call outcome): a raised call (`none`)
yields `0`, a response with no numeric token yields `0`, and a response
with extraneous text yields its first integral numeric token (clamped by
the `max(0.0, min(100.0, .))` of line 229). -/
theorem scoring_failure_isolation (userProfile : String) (item : Item) :
    scoreItemWithDeepseek userProfile item none = 0 ∧
    (∀ s : String, firstDigitRun (stripChars s.data) = none →
      scoreItemWithDeepseek userProfile item (some s) = 0) ∧
    (∀ (s : String) (run : List Char), firstDigitRun (stripChars s.data) = some run →
      scoreItemWithDeepseek userProfile item (some s)
        = max 0 (min 100 (digitsToNat run))) := by
  refine ⟨rfl, ?_, ?_⟩
  · intro s hs
    show (match firstDigitRun (stripChars s.data) with
      | none => 0
      | some run => max 0 (min 100 (digitsToNat run))) = 0
    rw [hs]
  · intro s run hs
    show (match firstDigitRun (stripChars s.data) with
      | none => 0
      | some run => max 0 (min 100 (digitsToNat run)))
        = max 0 (min 100 (digitsToNat run))
    rw [hs]

theorem scoring_failure_isolation_witness :
    scoreItemWithDeepseek "likes ML" itemA none = 0 ∧
    scoreItemWithDeepseek "likes ML" itemA (some "no score here") = 0 ∧
    scoreItemWithDeepseek "likes ML" itemA (some "I rate it 85/100.") = 85 := by
  obtain ⟨h1, h2, h3⟩ := scoring_failure_isolation "likes ML" itemA
  refine ⟨h1, h2 "no score here" (by decide), ?_⟩
  have h4 := h3 "I rate it 85/100." ['8', '5'] (by decide)
  rw [h4]
  decide

/-- Claim C9: an empty batch is not an error: the unseen filter, the
recency window, and the recommendation step all yield empty results, the
run terminates with the nothing-to-report outcome, and — in general,
whenever a run produces no report — the persisted seen set is returned
unchanged. -/
theorem empty_input_no_mutation (batch : Frame) (seen : List String)
    (settings : Settings) (apiKey : Option String) (scoreFn : Item → Nat) (cutoff : Int)
    (h : batch.rows = []) :
    (filterUnseenItems batch seen).rows = [] ∧
    (getRecentData (filterUnseenItems batch seen) cutoff).rows = [] ∧
    personalizedRecommendations [] settings apiKey scoreFn = none ∧
    runPipeline batch seen settings apiKey scoreFn cutoff = (none, seen) ∧
    (∀ (b : Frame) (s : List String),
      (runPipeline b s settings apiKey scoreFn cutoff).1 = none →
      (runPipeline b s settings apiKey scoreFn cutoff).2 = s) := by
  have hf : (filterUnseenItems batch seen).rows = [] := by
    unfold filterUnseenItems
    split
    · exact h
    · split
      · exact h
      · simp [h]
  have hr : (getRecentData (filterUnseenItems batch seen) cutoff).rows = [] := by
    unfold getRecentData
    simp [hf]
  have hp : personalizedRecommendations [] settings apiKey scoreFn = none := by
    unfold personalizedRecommendations
    split
    · rfl
    · split
      · rfl
      · cases apiKey with
        | none => rfl
        | some k => rw [if_pos rfl]
  refine ⟨hf, hr, hp, ?_, ?_⟩
  · unfold runPipeline
    rw [if_pos hf]
  · intro b s h1
    unfold runPipeline at h1 ⊢
    by_cases hc : (filterUnseenItems b s).rows = []
    · rw [if_pos hc]
    · rw [if_neg hc] at h1 ⊢
      cases hpr : personalizedRecommendations
          (getRecentData (filterUnseenItems b s) cutoff).rows settings apiKey scoreFn with
      | none => rfl
      | some report =>
        rw [hpr] at h1
        have h2 : (if report = [] then ((none : Option (List (Item × Nat))), s)
            else (some report, updatedSeen s report)).1 = none := h1
        show (if report = [] then ((none : Option (List (Item × Nat))), s)
          else (some report, updatedSeen s report)).2 = s
        by_cases hrep : report = []
        · rw [if_pos hrep]
        · rw [if_neg hrep] at h2
          exact absurd h2 (by simp)

theorem empty_input_no_mutation_witness :
    (filterUnseenItems ⟨true, []⟩ ["https://u.example/a"]).rows = [] ∧
    (getRecentData (filterUnseenItems ⟨true, []⟩ ["https://u.example/a"]) 0).rows = [] ∧
    personalizedRecommendations [] ⟨true, "likes ML", 80, 10, 30⟩ (some "key")
      (fun _ => 50) = none ∧
    runPipeline ⟨true, []⟩ ["https://u.example/a"] ⟨true, "likes ML", 80, 10, 30⟩
      (some "key") (fun _ => 50) 0 = (none, ["https://u.example/a"]) ∧
    (∀ (b : Frame) (s : List String),
      (runPipeline b s ⟨true, "likes ML", 80, 10, 30⟩ (some "key") (fun _ => 50) 0).1 = none →
      (runPipeline b s ⟨true, "likes ML", 80, 10, 30⟩ (some "key") (fun _ => 50) 0).2 = s) :=
  empty_input_no_mutation ⟨true, []⟩ ["https://u.example/a"]
    ⟨true, "likes ML", 80, 10, 30⟩ (some "key") (fun _ => 50) 0 rfl

/-- Claim C1: after a run whose final report is non-empty, the persisted
seen set is the old one extended with exactly the link identifiers of
the report's rows (the non-empty links, mirroring the `if link:` guard),
and `filter_unseen_items` of the next run drops from any batch with a
`link` column every row whose link is among them: an identifier in run
N's report never reaches run N+1's unseen-candidate set. -/
theorem no_repeat_across_runs (seen s₂ : List String) (batch nextBatch : Frame)
    (settings : Settings) (apiKey : Option String) (scoreFn : Item → Nat)
    (cutoff : Int) (report : List (Item × Nat))
    (hrun : runPipeline batch seen settings apiKey scoreFn cutoff = (some report, s₂))
    (hcol : nextBatch.hasLinkCol = true) :
    (∀ l, l ∈ s₂ ↔ (l ∈ seen ∨ l ∈ reportLinks report)) ∧
    (∀ l, l ∈ reportLinks report →
      ∀ it ∈ (filterUnseenItems nextBatch s₂).rows, it.link ≠ l) := by
  have hs₂ : s₂ = updatedSeen seen report := by
    unfold runPipeline at hrun
    by_cases hc : (filterUnseenItems batch seen).rows = []
    · rw [if_pos hc] at hrun
      simp at hrun
    · rw [if_neg hc] at hrun
      cases hpr : personalizedRecommendations
          (getRecentData (filterUnseenItems batch seen) cutoff).rows
          settings apiKey scoreFn with
      | none =>
        rw [hpr] at hrun
        simp at hrun
      | some rep =>
        rw [hpr] at hrun
        have hrun₂ : (if rep = [] then ((none : Option (List (Item × Nat))), seen)
            else (some rep, updatedSeen seen rep)) = (some report, s₂) := hrun
        by_cases hrep : rep = []
        · rw [if_pos hrep] at hrun₂
          simp at hrun₂
        · rw [if_neg hrep] at hrun₂
          obtain ⟨h1, h2⟩ := Prod.mk.injEq .. ▸ hrun₂
          obtain rfl := Option.some.inj h1
          exact h2.symm
  constructor
  · intro l
    rw [hs₂]
    unfold updatedSeen
    split
    · rename_i hnil
      rw [hnil]
      simp
    · simp [List.mem_append]
  · intro l hl it hit heq
    have hmem : l ∈ s₂ := by
      rw [hs₂]
      unfold updatedSeen
      split
      · rename_i hnil
        rw [hnil] at hl
        exact absurd hl (List.not_mem_nil l)
      · exact List.mem_append.2 (Or.inr hl)
    have hne : s₂ ≠ [] := List.ne_nil_of_mem hmem
    unfold filterUnseenItems at hit
    rw [if_neg (by simp [hcol]), if_neg hne] at hit
    have hfil := (List.mem_filter.1 hit).2
    have hcontains : s₂.contains it.link = false := by
      cases hcase : s₂.contains it.link
      · rfl
      · rw [hcase] at hfil
        simp at hfil
    have hmem₂ : it.link ∈ s₂ := heq ▸ hmem
    have helem : s₂.contains it.link = true := List.elem_iff.2 hmem₂
    rw [helem] at hcontains
    exact Bool.noConfusion hcontains

theorem no_repeat_across_runs_witness :
    (∀ l, l ∈ ["https://u.example/c"] ↔
      (l ∈ ([] : List String) ∨ l ∈ reportLinks [(itemC, 50)])) ∧
    (∀ l, l ∈ reportLinks [(itemC, 50)] →
      ∀ it ∈ (filterUnseenItems ⟨true, [itemC, itemA]⟩ ["https://u.example/c"]).rows,
        it.link ≠ l) :=
  no_repeat_across_runs [] ["https://u.example/c"] ⟨true, [itemC]⟩
    ⟨true, [itemC, itemA]⟩ ⟨true, "likes ML", 80, 10, 30⟩ (some "key")
    (fun _ => 50) 0 [(itemC, 50)] (by decide) rfl

/-- Claim C3: the concurrent engine is index-aligned: for any completion
order of the individual scoring calls (any permutation of the item
indices — a worker pool smaller than the batch still completes each call
exactly once, in some order), the scores list has the batch's length,
equals the sequential `map`, `scores[i]` is the score of `items[i]` for
every `i`, and each item is scored exactly once. -/
theorem order_alignment (f : Item → Nat) (items : List Item) (order : List Nat)
    (hperm : order.Perm (List.range items.length)) :
    (scoreAll f items order).length = items.length ∧
    scoreAll f items order = items.map f ∧
    (∀ i, i < items.length →
      (scoreAll f items order).getD i 0 = f (items.getD i default)) ∧
    (∀ i, i < items.length → order.count i = 1) := by
  have hmap := scoreAll_eq_map f items order hperm
  refine ⟨by rw [hmap, List.length_map], hmap, ?_, ?_⟩
  · intro i hi
    rw [hmap, List.getD_eq_getElem _ _ (by rw [List.length_map]; exact hi),
      List.getElem_map, List.getD_eq_getElem _ _ hi]
  · intro i hi
    have hnodup : order.Nodup := hperm.nodup_iff.2 (List.nodup_range _)
    have hmem : i ∈ order := hperm.mem_iff.2 (List.mem_range.2 hi)
    exact List.count_eq_one_of_mem hnodup hmem

theorem order_alignment_witness :
    (scoreAll (fun it => it.title.length) [itemA, itemB] [1, 0]).length
      = [itemA, itemB].length ∧
    scoreAll (fun it => it.title.length) [itemA, itemB] [1, 0]
      = [itemA, itemB].map (fun it => it.title.length) ∧
    (∀ i, i < [itemA, itemB].length →
      (scoreAll (fun it => it.title.length) [itemA, itemB] [1, 0]).getD i 0
        = (fun it => it.title.length) ([itemA, itemB].getD i default)) ∧
    (∀ i, i < [itemA, itemB].length → [1, 0].count i = 1) :=
  order_alignment (fun it => it.title.length) [itemA, itemB] [1, 0] (by decide)

theorem nargsortDescScores_length (scores : List Nat) :
    (nargsortDescScores scores).length = scores.length := by
  unfold nargsortDescScores
  rw [(nargsortDesc_perm _ _).length_eq, List.length_range, List.length_map]

/-- Claim C5: the ranking step is bounded: for aligned rows and scores
the report's length is exactly `min top_n (number of rows)` — so never
more than `top_n`, empty for an empty candidate list, and without
padding when there are fewer candidates than `top_n`; and a report the
recommendation step actually returns has length
`min top_n (number of capped candidates)`. -/
theorem bounded_output (rows : List (Item × Nat)) (scores : List Nat) (topN : Nat)
    (hlen : scores.length = rows.length) :
    (rankAggregator rows scores topN).length = min topN rows.length ∧
    (rankAggregator rows scores topN).length ≤ topN ∧
    (rows = [] → rankAggregator rows scores topN = []) ∧
    (∀ (recentRows : List Item) (settings : Settings) (key : String)
      (scoreFn : Item → Nat) (r : List (Item × Nat)),
      personalizedRecommendations recentRows settings (some key) scoreFn = some r →
      r.length = min settings.topN
        (selectCandidates recentRows settings.maxCandidates).length) := by
  have hlen₁ : (rankAggregator rows scores topN).length = min topN rows.length := by
    unfold rankAggregator
    rw [List.length_take, List.length_map, nargsortDescScores_length, hlen]
  refine ⟨hlen₁, ?_, ?_, ?_⟩
  · rw [hlen₁]
    exact Nat.min_le_left _ _
  · intro hrows
    have h0 : (rankAggregator rows scores topN).length = 0 := by
      rw [hlen₁, hrows]
      simp
    exact List.eq_nil_of_length_eq_zero h0
  · intro recentRows settings key scoreFn r hr
    unfold personalizedRecommendations at hr
    by_cases he : (!settings.enable) = true
    · rw [if_pos he] at hr
      cases hr
    · rw [if_neg he] at hr
      by_cases hp : stripChars settings.userProfile.data = []
      · rw [if_pos hp] at hr
        cases hr
      · rw [if_neg hp] at hr
        have hr₂ : (if recentRows = [] then none
            else some (rankAggregator
              ((selectCandidates recentRows settings.maxCandidates).zip
                ((selectCandidates recentRows settings.maxCandidates).map scoreFn))
              ((selectCandidates recentRows settings.maxCandidates).map scoreFn)
              settings.topN)) = some r := hr
        by_cases hemp : recentRows = []
        · rw [if_pos hemp] at hr₂
          cases hr₂
        · rw [if_neg hemp] at hr₂
          obtain rfl := (Option.some.inj hr₂).symm
          unfold rankAggregator
          rw [List.length_take, List.length_map, nargsortDescScores_length,
            List.length_map]

theorem bounded_output_witness :
    (rankAggregator [(itemA, 7)] [7] 3).length = min 3 [(itemA, 7)].length ∧
    ([(itemC, 50)] : List (Item × Nat)).length
      = min 10 (selectCandidates [itemC] 80).length := by
  have h := bounded_output [(itemA, 7)] [7] 3 rfl
  exact ⟨h.1, h.2.2.2 [itemC] ⟨true, "likes ML", 80, 10, 30⟩ "key"
    (fun _ => 50) [(itemC, 50)] (by decide)⟩

theorem sortedRows_perm (rows : List Item) :
    ((nargsortDesc (rows.map effTs) 0).map (fun i => rows.getD i default)).Perm rows := by
  have h1 := (nargsortDesc_perm (rows.map effTs) (0 : Int)).map
    (fun i => rows.getD i default)
  rw [List.length_map] at h1
  rwa [map_getD_range default rows] at h1

theorem sortedRows_pairwise (rows : List Item) :
    ((nargsortDesc (rows.map effTs) 0).map (fun i => rows.getD i default)).Pairwise
      (fun a b => optGe (effTs a) (effTs b)) := by
  rw [List.pairwise_map]
  refine (nargsortDesc_pairwise (rows.map effTs) (0 : Int)).imp_of_mem ?_
  intro i j hi hj hij
  have hib : i < rows.length := by
    have h := (nargsortDesc_perm (rows.map effTs) (0 : Int)).mem_iff.1 hi
    rw [List.mem_range, List.length_map] at h
    exact h
  have hjb : j < rows.length := by
    have h := (nargsortDesc_perm (rows.map effTs) (0 : Int)).mem_iff.1 hj
    rw [List.mem_range, List.length_map] at h
    exact h
  have hkey : ∀ k, k < rows.length →
      (rows.map effTs).getD k none = effTs (rows.getD k default) := by
    intro k hk
    rw [List.getD_eq_getElem _ _ (by rw [List.length_map]; exact hk),
      List.getElem_map, List.getD_eq_getElem _ _ hk]
  rwa [hkey i hib, hkey j hjb] at hij

/-- Claim C6: candidate capping orders the batch by effective timestamp
descending (`published` if parseable else `fetched_at`; rows with no
parseable timestamp sort after every timestamped row) and keeps at most
`max_candidates` rows; with `max_candidates = 1` and a strictly newest
row, exactly that row is kept for scoring. -/
theorem candidate_selection (rows : List Item) (maxCandidates : Nat) :
    (selectCandidates rows maxCandidates).length = min maxCandidates rows.length ∧
    (∀ it ∈ selectCandidates rows maxCandidates, it ∈ rows) ∧
    (selectCandidates rows maxCandidates).Pairwise
      (fun a b => optGe (effTs a) (effTs b)) ∧
    (∀ x ∈ rows, (∀ y ∈ rows, y ≠ x → optLt (effTs y) (effTs x)) →
      selectCandidates rows 1 = [x]) := by
  have hperm := sortedRows_perm rows
  have hpw := sortedRows_pairwise rows
  refine ⟨?_, ?_, ?_, ?_⟩
  · unfold selectCandidates
    rw [List.length_take, hperm.length_eq]
  · intro it hit
    unfold selectCandidates at hit
    exact hperm.mem_iff.1 ((List.take_sublist _ _).subset hit)
  · exact List.Pairwise.sublist (List.take_sublist _ _) hpw
  · intro x hx hmax
    have hlen : ((nargsortDesc (rows.map effTs) 0).map
        (fun i => rows.getD i default)).length = rows.length := hperm.length_eq
    have hpos : 0 < ((nargsortDesc (rows.map effTs) 0).map
        (fun i => rows.getD i default)).length := by
      rw [hlen]
      exact List.length_pos.2 (List.ne_nil_of_mem hx)
    obtain ⟨z, t, hS⟩ :=
      List.exists_cons_of_ne_nil (List.ne_nil_of_length_pos hpos)
    have htake : selectCandidates rows 1 = [z] := by
      unfold selectCandidates
      rw [hS]
      rfl
    have hz_mem : z ∈ rows := hperm.mem_iff.1 (hS ▸ List.mem_cons_self z t)
    by_cases hzx : z = x
    · rw [htake, hzx]
    · exfalso
      have hx_S : x ∈ ((nargsortDesc (rows.map effTs) 0).map
          (fun i => rows.getD i default)) := hperm.mem_iff.2 hx
      rw [hS] at hx_S
      rcases List.mem_cons.1 hx_S with rfl | hxt
      · exact hzx rfl
      · have hge : optGe (effTs z) (effTs x) := by
          rw [hS] at hpw
          exact (List.pairwise_cons.1 hpw).1 x hxt
        exact optLt_not_optGe (hmax z hz_mem hzx) hge

theorem candidate_selection_witness : selectCandidates [itemA, itemB] 1 = [itemB] :=
  (candidate_selection [itemA, itemB] 1).2.2.2 itemB (by decide) (by decide)

theorem nargsortDescScores_pairwise (scores : List Nat) :
    (nargsortDescScores scores).Pairwise
      (fun i j => scores.getD j 0 ≤ scores.getD i 0) := by
  unfold nargsortDescScores
  refine (nargsortDesc_pairwise (scores.map (fun s => some s)) 0).imp_of_mem ?_
  intro i j hi hj hij
  have hib : i < scores.length := by
    have h := (nargsortDesc_perm (scores.map (fun s => some s)) 0).mem_iff.1 hi
    rw [List.mem_range, List.length_map] at h
    exact h
  have hjb : j < scores.length := by
    have h := (nargsortDesc_perm (scores.map (fun s => some s)) 0).mem_iff.1 hj
    rw [List.mem_range, List.length_map] at h
    exact h
  have hkey : ∀ k, k < scores.length →
      (scores.map (fun s => some s)).getD k none = some (scores.getD k 0) := by
    intro k hk
    rw [List.getD_eq_getElem _ _ (by rw [List.length_map]; exact hk),
      List.getElem_map, List.getD_eq_getElem _ _ hk]
  rw [hkey i hib, hkey j hjb] at hij
  exact hij

/-- Claim C4 (counterexample): the ranking sort is pandas'
`sort_values` with the default `kind='quicksort'`, which the library
does not guarantee to be stable — any ascending argsort of the reversed
score column is a permissible outcome.  For the tied scores `[80, 80]`
the outcome `[1, 0]` conforms (it is a permutation and the keys along it
are non-decreasing), and under it the two equal-score rows appear in the
report in reversed input order, refuting "ties preserve their relative
input order". -/
theorem stable_ranking_counterexample :
    IsAscArgsortOf ([80, 80] : List Nat).reverse [1, 0] ∧
    rankWithDescIdx [(itemA, 80), (itemB, 80)] (pandasDescFromAsc [1, 0] 2) 2
      = [(itemB, 80), (itemA, 80)] ∧
    [(itemB, 80), (itemA, 80)] ≠ [(itemA, 80), (itemB, 80)] := by
  refine ⟨⟨by decide, by decide⟩, by decide, by decide⟩

/-- Claim C4 (amended): the ranking step reorders the scored candidates
by the descending indexer of the score column and truncates to `top_n`;
along every indexer the library may produce (`pandasDescFromAsc` of any
conforming ascending argsort — the stable `nargsortDescScores` is one
such outcome), scores are non-increasing.  The order of equal-score
candidates is whatever the unstable quicksort yields and is not
guaranteed to match the input order. -/
theorem ranking_desc_order (rows : List (Item × Nat)) (scores : List Nat)
    (topN : Nat) :
    rankAggregator rows scores topN
      = ((nargsortDescScores scores).take topN).map (fun i => rows.getD i default) ∧
    ((nargsortDescScores scores).take topN).Pairwise
      (fun i j => scores.getD j 0 ≤ scores.getD i 0) ∧
    (nargsortDescScores scores).Perm (List.range scores.length) ∧
    (∀ p, IsAscArgsortOf scores.reverse p →
      (pandasDescFromAsc p scores.length).Pairwise
        (fun i j => scores.getD j 0 ≤ scores.getD i 0)) := by
  refine ⟨?_, ?_, ?_, ?_⟩
  · unfold rankAggregator
    rw [List.map_take]
  · exact List.Pairwise.sublist (List.take_sublist _ _)
      (nargsortDescScores_pairwise scores)
  · have h := nargsortDesc_perm (scores.map (fun s => some s)) 0
    rw [List.length_map] at h
    exact h
  · rintro p ⟨hperm, hpw⟩
    unfold pandasDescFromAsc
    rw [List.pairwise_reverse, List.pairwise_map]
    refine hpw.imp_of_mem ?_
    intro k₁ k₂ hk₁ hk₂ hle
    have hb₁ : k₁ < scores.length := by
      have h := hperm.mem_iff.1 hk₁
      rw [List.mem_range, List.length_reverse] at h
      exact h
    have hb₂ : k₂ < scores.length := by
      have h := hperm.mem_iff.1 hk₂
      rw [List.mem_range, List.length_reverse] at h
      exact h
    have hkey : ∀ k, k < scores.length →
        scores.reverse.getD k 0 = scores.getD (scores.length - 1 - k) 0 := by
      intro k hk
      have hk' : k < scores.reverse.length := by
        rw [List.length_reverse]
        exact hk
      rw [List.getD_eq_getElem _ _ hk', List.getElem_reverse,
        List.getD_eq_getElem _ _ (by omega)]
    rw [hkey k₁ hb₁, hkey k₂ hb₂] at hle
    exact hle

theorem ranking_desc_order_witness :
    rankAggregator [(itemA, 80), (itemB, 80)] [80, 80] 2
      = ((nargsortDescScores [80, 80]).take 2).map
          (fun i => [(itemA, 80), (itemB, 80)].getD i default) ∧
    (pandasDescFromAsc [1, 0] ([80, 80] : List Nat).length).Pairwise
      (fun i j => ([80, 80] : List Nat).getD j 0 ≤ ([80, 80] : List Nat).getD i 0) := by
  have h := ranking_desc_order [(itemA, 80), (itemB, 80)] [80, 80] 2
  exact ⟨h.1, h.2.2.2 [1, 0] ⟨by decide, by decide⟩⟩
